import Mathlib

/-!
# Tick delay routine of `software/example-gpio/example-gpio.c`

A shallow embedding of `delay_ticks` and of the `delay_ms` conversion.

* `unsigned long` is `w` bits wide; a value of that type is a natural number
  below `2 ^ w` and every operation is followed by an explicit `% 2 ^ w`.
* `metal_cpu_get_mtime(cpu)` is a hardware read.  The sequence of values the
  successive reads give is a function `mtime : Nat → Nat` (read number `i` gives
  `mtime i`, a raw `unsigned long long`); the state threaded through the code
  is the number of the next read.
* A `while (c) {}` loop is run with fuel: `none` means that the loop is still
  spinning when the fuel is used up, `some i` that it left at read number `i`.
-/

namespace ExampleGpio

/-! ## Definitions -/

/-- The cast `(unsigned long)v`: keeps the low `w` bits of `v`. -/
def cast_ulong (w v : Nat) : Nat := v % 2 ^ w

/-- The loop `while (cond((unsigned long)metal_cpu_get_mtime(cpu))) {}` entered
when the next read is read number `i`.  Each evaluation of the condition does one
read; the result is the number of the read at which the condition was false. -/
def busy_wait (w : Nat) (mtime : Nat → Nat) (cond : Nat → Bool) : Nat → Nat → Option Nat
  | 0, _ => none
  | fuel + 1, i =>
    if cond (cast_ulong w (mtime i)) then busy_wait w mtime cond fuel (i + 1) else some i

/-- Line 19: `while ((unsigned long)metal_cpu_get_mtime(cpu) > 0) {}`. -/
def wait_wrap (w : Nat) (mtime : Nat → Nat) (fuel i : Nat) : Option Nat :=
  busy_wait w mtime (fun now => decide (now > 0)) fuel i

/-- Line 22: `while (delay_tks > (unsigned long)metal_cpu_get_mtime(cpu)) {}`. -/
def wait_target (w : Nat) (mtime : Nat → Nat) (delay_tks fuel i : Nat) : Option Nat :=
  busy_wait w mtime (fun now => decide (delay_tks > now)) fuel i

/-- The value of `delay_tks` (line 15): `mtime + ticks` in `unsigned long`
arithmetic, `mtime` being the value of read number 0. -/
def target (w : Nat) (mtime : Nat → Nat) (ticks : Nat) : Nat :=
  cast_ulong w (cast_ulong w (mtime 0) + ticks)

/-- The test of line 17, `delay_tks < mtime`. -/
def overflowed (w : Nat) (mtime : Nat → Nat) (ticks : Nat) : Bool :=
  decide (target w mtime ticks < cast_ulong w (mtime 0))

/-- The function `delay_ticks` (lines 12 to 23).  Read number 0 is the read of
line 14.  The result is the number of the last read the call did, the one at
which the loop of line 22 was left; `none` when a loop is still spinning after
`fuel` evaluations of its condition. -/
def delay_ticks (w : Nat) (mtime : Nat → Nat) (ticks fuel : Nat) : Option Nat :=
  let mtime0 := cast_ulong w (mtime 0)
  let delay_tks := cast_ulong w (mtime0 + ticks)
  if delay_tks < mtime0 then
    match wait_wrap w mtime fuel 1 with
    | none => none
    | some j => wait_target w mtime delay_tks fuel (j + 1)
  else
    wait_target w mtime delay_tks fuel 1

/-- The argument that `delay_ms(ms)` (line 26) hands to `delay_ticks`:
`MTIME_RATE_HZ_DEF * ms / 1000UL` in `unsigned long` arithmetic.  The constant
`MTIME_RATE_HZ_DEF` comes from the board support package and is the parameter
`rate`.  (`unsigned long` has at least 32 bits, so `1000UL` is 1000.) -/
def delay_ms_ticks (w rate ms : Nat) : Nat :=
  cast_ulong w (cast_ulong w (cast_ulong w rate * cast_ulong w ms) / 1000)

/-- The macro `delay_ms` (line 26). -/
def delay_ms (w rate : Nat) (mtime : Nat → Nat) (ms fuel : Nat) : Option Nat :=
  delay_ticks w mtime (delay_ms_ticks w rate ms) fuel

/-- The reads that are left for the code that runs after a call whose last read
was read number `i`. -/
def reads_after (mtime : Nat → Nat) (i : Nat) : Nat → Nat :=
  fun k => mtime (i + 1 + k)

/-- Two calls in a row, `delay_ticks(n); delay_ticks(n);` (the shape of lines 58
and 60).  The result is the pair of the last read of the first call and the
last read of the second call, the latter numbered from read 0 of the first. -/
def delay_ticks_twice (w : Nat) (mtime : Nat → Nat) (n fuel : Nat) : Option (Nat × Nat) :=
  match delay_ticks w mtime n fuel with
  | none => none
  | some i =>
    match delay_ticks w (reads_after mtime i) n fuel with
    | none => none
    | some k => some (i, i + 1 + k)

/-- A simulated `w`-bit counter whose first read gives `start` and which has
advanced by `e i` ticks in all when read number `i` is done. -/
def elapsed_counter (w start : Nat) (e : Nat → Nat) : Nat → Nat :=
  fun i => (start + e i) % 2 ^ w

/-- A simulated `w`-bit counter that advances by exactly one, wrapping at
`2 ^ w`, between two consecutive reads. -/
def ticking (w start : Nat) : Nat → Nat :=
  fun i => (start + i) % 2 ^ w

/-- A counter that does not advance: every read gives `c`. -/
def stalled (c : Nat) : Nat → Nat :=
  fun _ => c

/-! ## The busy-wait loop -/

theorem busy_wait_some {w : Nat} {mtime : Nat → Nat} {cond : Nat → Bool} :
    ∀ {fuel i n : Nat}, busy_wait w mtime cond fuel i = some n →
      i ≤ n ∧ n < i + fuel ∧ cond (cast_ulong w (mtime n)) = false ∧
        ∀ j, i ≤ j → j < n → cond (cast_ulong w (mtime j)) = true := by
  intro fuel
  induction fuel with
  | zero => intro i n h; simp [busy_wait] at h
  | succ fuel ih =>
    intro i n h
    unfold busy_wait at h
    by_cases hc : cond (cast_ulong w (mtime i)) = true
    · rw [if_pos hc] at h
      obtain ⟨h1, h2, h3, h4⟩ := ih h
      refine ⟨by omega, by omega, h3, ?_⟩
      intro j hj hjn
      rcases Nat.eq_or_lt_of_le hj with rfl | hlt
      · exact hc
      · exact h4 j hlt hjn
    · rw [if_neg hc] at h
      have hn : i = n := Option.some.inj h
      subst hn
      refine ⟨le_refl _, by omega, by simpa using hc, ?_⟩
      intro j hj hjn
      omega

theorem busy_wait_first {w : Nat} {mtime : Nat → Nat} {cond : Nat → Bool} :
    ∀ {fuel i n : Nat}, i ≤ n → n < i + fuel → cond (cast_ulong w (mtime n)) = false →
      (∀ j, i ≤ j → j < n → cond (cast_ulong w (mtime j)) = true) →
      busy_wait w mtime cond fuel i = some n := by
  intro fuel
  induction fuel with
  | zero => intro i n h1 h2; omega
  | succ fuel ih =>
    intro i n h1 h2 h3 h4
    unfold busy_wait
    rcases Nat.eq_or_lt_of_le h1 with rfl | hlt
    · simp [h3]
    · rw [if_pos (h4 i (le_refl _) hlt)]
      exact ih hlt (by omega) h3 (fun j hj hjn => h4 j (by omega) hjn)

theorem busy_wait_none {w : Nat} {mtime : Nat → Nat} {cond : Nat → Bool} {i : Nat}
    (h : ∀ j, i ≤ j → cond (cast_ulong w (mtime j)) = true) (fuel : Nat) :
    busy_wait w mtime cond fuel i = none := by
  cases hb : busy_wait w mtime cond fuel i with
  | none => rfl
  | some n =>
    obtain ⟨h1, _, h3, _⟩ := busy_wait_some hb
    rw [h n h1] at h3
    cases h3

/-! ## Arithmetic modulo the width of the counter -/

theorem mod_wrapped {a m : Nat} (h1 : m ≤ a) (h2 : a < m + m) : a % m = a - m := by
  rw [Nat.mod_eq_sub_mod h1, Nat.mod_eq_of_lt (by omega)]

theorem le_of_mod_eq_zero {a m : Nat} (h : a % m = 0) (ha : 0 < a) : m ≤ a := by
  by_contra hlt
  rw [Nat.mod_eq_of_lt (by omega)] at h
  omega

theorem cast_ulong_lt (w v : Nat) : cast_ulong w v < 2 ^ w :=
  Nat.mod_lt _ (Nat.pos_pow_of_pos w (by decide))

theorem cast_ulong_elapsed (w start : Nat) (e : Nat → Nat) (i : Nat) :
    cast_ulong w (elapsed_counter w start e i) = (start + e i) % 2 ^ w := by
  simp [cast_ulong, elapsed_counter]

theorem cast_ulong_ticking (w start i : Nat) :
    cast_ulong w (ticking w start i) = (start + i) % 2 ^ w := by
  simp [cast_ulong, ticking]

theorem ticking_eq_elapsed (w start : Nat) :
    ticking w start = elapsed_counter w start (fun i => i) := rfl

/-! ## The two paths of `delay_ticks` -/

theorem delay_ticks_normal {w : Nat} {mtime : Nat → Nat} {ticks : Nat}
    (h : ¬ target w mtime ticks < cast_ulong w (mtime 0)) (fuel : Nat) :
    delay_ticks w mtime ticks fuel = wait_target w mtime (target w mtime ticks) fuel 1 := by
  unfold target at h
  simp only [delay_ticks, target, if_neg h]

theorem delay_ticks_overflow {w : Nat} {mtime : Nat → Nat} {ticks : Nat}
    (h : target w mtime ticks < cast_ulong w (mtime 0)) (fuel : Nat) :
    delay_ticks w mtime ticks fuel =
      match wait_wrap w mtime fuel 1 with
      | none => none
      | some j => wait_target w mtime (target w mtime ticks) fuel (j + 1) := by
  unfold target at h
  simp only [delay_ticks, target, if_pos h]

/-- What a returning call has seen.  In the normal case the last read `i` is the
first read from read 1 on that is not below the target.  In the overflow case
some read `j` from read 1 on gave 0, every read between read 0 and read `j` was
positive, and `i` is the first read after `j` that is not below the target. -/
theorem delay_ticks_some {w : Nat} {mtime : Nat → Nat} {ticks fuel i : Nat}
    (h : delay_ticks w mtime ticks fuel = some i) :
    (¬ target w mtime ticks < cast_ulong w (mtime 0) ∧ 1 ≤ i ∧
        target w mtime ticks ≤ cast_ulong w (mtime i) ∧
        ∀ k, 1 ≤ k → k < i → cast_ulong w (mtime k) < target w mtime ticks) ∨
    (target w mtime ticks < cast_ulong w (mtime 0) ∧
        ∃ j, 1 ≤ j ∧ j < i ∧ cast_ulong w (mtime j) = 0 ∧
          (∀ k, 1 ≤ k → k < j → 0 < cast_ulong w (mtime k)) ∧
          target w mtime ticks ≤ cast_ulong w (mtime i) ∧
          ∀ k, j < k → k < i → cast_ulong w (mtime k) < target w mtime ticks) := by
  by_cases ho : target w mtime ticks < cast_ulong w (mtime 0)
  · right
    rw [delay_ticks_overflow ho] at h
    cases hw : wait_wrap w mtime fuel 1 with
    | none => rw [hw] at h; cases h
    | some j =>
      rw [hw] at h
      obtain ⟨a1, _, a3, a4⟩ := busy_wait_some hw
      obtain ⟨b1, _, b3, b4⟩ := busy_wait_some h
      refine ⟨ho, j, a1, by omega, by simpa using a3, ?_, by simpa using b3, ?_⟩
      · intro k hk hkj
        simpa using a4 k hk hkj
      · intro k hk hki
        simpa using b4 k (by omega) hki
  · left
    rw [delay_ticks_normal ho] at h
    obtain ⟨b1, _, b3, b4⟩ := busy_wait_some h
    refine ⟨ho, b1, by simpa using b3, ?_⟩
    intro k hk hki
    simpa using b4 k hk hki

/-- A returned result does not depend on the fuel. -/
theorem delay_ticks_fuel {w : Nat} {mtime : Nat → Nat} {ticks fuel fuel2 i : Nat}
    (h : delay_ticks w mtime ticks fuel = some i) (hf : fuel ≤ fuel2) :
    delay_ticks w mtime ticks fuel2 = some i := by
  by_cases ho : target w mtime ticks < cast_ulong w (mtime 0)
  · rw [delay_ticks_overflow ho] at h ⊢
    cases hw : wait_wrap w mtime fuel 1 with
    | none => rw [hw] at h; cases h
    | some j =>
      rw [hw] at h
      obtain ⟨a1, a2, a3, a4⟩ := busy_wait_some hw
      obtain ⟨b1, b2, b3, b4⟩ := busy_wait_some h
      have hw2 : wait_wrap w mtime fuel2 1 = some j :=
        busy_wait_first a1 (by omega) a3 a4
      rw [hw2]
      exact busy_wait_first b1 (by omega) b3 b4
  · rw [delay_ticks_normal ho] at h ⊢
    obtain ⟨b1, b2, b3, b4⟩ := busy_wait_some h
    exact busy_wait_first b1 (by omega) b3 b4

/-! ## A counter given by its elapsed ticks -/

theorem elapsed_read0 {w start : Nat} {e : Nat → Nat} (hs : start < 2 ^ w) (h0 : e 0 = 0) :
    cast_ulong w (elapsed_counter w start e 0) = start := by
  rw [cast_ulong_elapsed, h0, Nat.add_zero, Nat.mod_eq_of_lt hs]

theorem target_elapsed {w start : Nat} {e : Nat → Nat} (hs : start < 2 ^ w) (h0 : e 0 = 0)
    (ticks : Nat) : target w (elapsed_counter w start e) ticks = (start + ticks) % 2 ^ w := by
  rw [target, elapsed_read0 hs h0, cast_ulong]

theorem no_overflow_of_not_lt {start ticks m : Nat} (ht : ticks < m) (hs : start < m)
    (h : ¬ (start + ticks) % m < start) : start + ticks < m := by
  by_contra hge
  rw [mod_wrapped (by omega) (by omega)] at h
  omega

theorem overflow_of_lt {start ticks m : Nat} (h : (start + ticks) % m < start) :
    m ≤ start + ticks := by
  by_contra hlt
  rw [Nat.mod_eq_of_lt (by omega)] at h
  omega

/-- The last read of a returning call is at least `ticks` elapsed ticks after
read 0, however far the counter moves between two reads. -/
theorem no_early_return {w start ticks : Nat} {e : Nat → Nat} {fuel i : Nat}
    (hs : start < 2 ^ w) (ht : ticks < 2 ^ w) (h0 : e 0 = 0)
    (hmono : ∀ a b, a ≤ b → e a ≤ e b)
    (h : delay_ticks w (elapsed_counter w start e) ticks fuel = some i) : ticks ≤ e i := by
  have hr0 := elapsed_read0 (e := e) hs h0
  have htg := target_elapsed (e := e) hs h0 ticks
  rcases delay_ticks_some h with ⟨ho, _, h2, _⟩ | ⟨ho, j, _, hji, hz, _, h2, _⟩
  · rw [hr0, htg] at ho
    rw [htg, cast_ulong_elapsed] at h2
    have hsum := no_overflow_of_not_lt ht hs ho
    by_contra hlt
    rw [Nat.mod_eq_of_lt hsum, Nat.mod_eq_of_lt (by omega)] at h2
    omega
  · rw [hr0, htg] at ho
    rw [htg, cast_ulong_elapsed] at h2
    rw [cast_ulong_elapsed] at hz
    have hsum := overflow_of_lt ho
    have hwrap := le_of_mod_eq_zero hz (by omega)
    have hji2 := hmono j i (by omega)
    by_contra hlt
    rw [mod_wrapped hsum (by omega), mod_wrapped (by omega) (by omega)] at h2
    omega

/-! ## A counter that advances by one between two reads -/

theorem target_ticking {w start : Nat} (hs : start < 2 ^ w) (ticks : Nat) :
    target w (ticking w start) ticks = (start + ticks) % 2 ^ w :=
  target_elapsed (e := fun i => i) hs rfl ticks

theorem read0_ticking {w start : Nat} (hs : start < 2 ^ w) :
    cast_ulong w (ticking w start 0) = start :=
  elapsed_read0 (e := fun i => i) hs rfl

/-- Normal case, `ticks` positive: the last read is read number `ticks`. -/
theorem delay_ticks_ticking_normal {w start ticks fuel : Nat} (hsum : start + ticks < 2 ^ w)
    (ht : 1 ≤ ticks) (hf : ticks ≤ fuel) :
    delay_ticks w (ticking w start) ticks fuel = some ticks := by
  have hs : start < 2 ^ w := by omega
  have htg : target w (ticking w start) ticks = start + ticks := by
    rw [target_ticking hs, Nat.mod_eq_of_lt hsum]
  have ho : ¬ target w (ticking w start) ticks < cast_ulong w (ticking w start 0) := by
    rw [htg, read0_ticking hs]; omega
  rw [delay_ticks_normal ho, htg]
  refine busy_wait_first ht (by omega) ?_ ?_
  · rw [cast_ulong_ticking, Nat.mod_eq_of_lt hsum]; simp
  · intro j _ hj
    rw [cast_ulong_ticking, Nat.mod_eq_of_lt (by omega)]
    simpa using hj

/-- Overflow case: the last read is read number `ticks`, or `ticks + 1` when the
target is 0. -/
theorem delay_ticks_ticking_overflow {w start ticks fuel : Nat} (hs : start < 2 ^ w)
    (ht : ticks < 2 ^ w) (hsum : 2 ^ w ≤ start + ticks) (hf : ticks ≤ fuel) :
    delay_ticks w (ticking w start) ticks fuel =
      some (if start + ticks = 2 ^ w then ticks + 1 else ticks) := by
  have htg : target w (ticking w start) ticks = start + ticks - 2 ^ w := by
    rw [target_ticking hs, mod_wrapped hsum (by omega)]
  have ho : target w (ticking w start) ticks < cast_ulong w (ticking w start 0) := by
    rw [htg, read0_ticking hs]; omega
  have hwrap : wait_wrap w (ticking w start) fuel 1 = some (2 ^ w - start) := by
    refine busy_wait_first (by omega) (by omega) ?_ ?_
    · rw [cast_ulong_ticking, Nat.add_sub_cancel' (le_of_lt hs), Nat.mod_self]; simp
    · intro j hj1 hj
      rw [cast_ulong_ticking, Nat.mod_eq_of_lt (by omega)]
      simp only [gt_iff_lt, decide_eq_true_eq]
      omega
  rw [delay_ticks_overflow ho, hwrap, htg]
  show wait_target w (ticking w start) (start + ticks - 2 ^ w) fuel (2 ^ w - start + 1) = _
  by_cases hz : start + ticks = 2 ^ w
  · rw [if_pos hz]
    have hzero : start + ticks - 2 ^ w = 0 := by omega
    have hidx : 2 ^ w - start + 1 = ticks + 1 := by omega
    rw [hzero, hidx]
    refine busy_wait_first (le_refl _) (by omega) (by simp) ?_
    intro j hj1 hj
    omega
  · rw [if_neg hz]
    refine busy_wait_first (by omega) (by omega) ?_ ?_
    · rw [cast_ulong_ticking, mod_wrapped hsum (by omega)]; simp
    · intro j hj1 hj
      rw [cast_ulong_ticking, mod_wrapped (by omega) (by omega)]
      simp only [gt_iff_lt, decide_eq_true_eq]
      omega

/-- A call with `ticks = 0` from a start below the maximum: the loop of line 22 is
left at its first test, at read number 1. -/
theorem delay_ticks_ticking_zero {w start fuel : Nat} (hs : start + 1 < 2 ^ w)
    (hf : 1 ≤ fuel) : delay_ticks w (ticking w start) 0 fuel = some 1 := by
  have hs2 : start < 2 ^ w := by omega
  have htg : target w (ticking w start) 0 = start := by
    rw [target_ticking hs2, Nat.add_zero, Nat.mod_eq_of_lt hs2]
  have ho : ¬ target w (ticking w start) 0 < cast_ulong w (ticking w start 0) := by
    rw [htg, read0_ticking hs2]; omega
  rw [delay_ticks_normal ho, htg]
  refine busy_wait_first (le_refl _) (by omega) ?_ ?_
  · rw [cast_ulong_ticking, Nat.mod_eq_of_lt hs]; simp
  · intro j hj1 hj
    omega

/-- A call with `ticks = 0` when read 0 gives the maximum `2 ^ w - 1`: read 1 sees the
counter wrapped to 0, below the target, and the loop of line 22 spins until the
counter is back at the maximum, at read number `2 ^ w`. -/
theorem delay_ticks_ticking_zero_max {w start fuel : Nat} (hs : start + 1 = 2 ^ w)
    (hf : 2 ^ w ≤ fuel) : delay_ticks w (ticking w start) 0 fuel = some (2 ^ w) := by
  have hs2 : start < 2 ^ w := by omega
  have htg : target w (ticking w start) 0 = start := by
    rw [target_ticking hs2, Nat.add_zero, Nat.mod_eq_of_lt hs2]
  have ho : ¬ target w (ticking w start) 0 < cast_ulong w (ticking w start 0) := by
    rw [htg, read0_ticking hs2]; omega
  rw [delay_ticks_normal ho, htg]
  refine busy_wait_first (by omega) (by omega) ?_ ?_
  · rw [cast_ulong_ticking, mod_wrapped (by omega) (by omega)]; simp
  · intro j hj1 hj
    rw [cast_ulong_ticking, mod_wrapped (by omega) (by omega)]
    simp only [gt_iff_lt, decide_eq_true_eq]
    omega

/-- Two returning runs of the same call, whatever their fuel, have the same last
read. -/
theorem delay_ticks_unique {w : Nat} {mtime : Nat → Nat} {ticks fuel fuel2 i k : Nat}
    (h : delay_ticks w mtime ticks fuel = some i)
    (h2 : delay_ticks w mtime ticks fuel2 = some k) : k = i := by
  have a := delay_ticks_fuel h (Nat.le_max_left fuel fuel2)
  have b := delay_ticks_fuel h2 (Nat.le_max_right fuel fuel2)
  rw [a] at b
  exact (Option.some.inj b).symm

/-- With `ticks` positive the last read is read number `ticks`, or `ticks + 1` when
the target is 0. -/
theorem delay_ticks_ticking_pos {w start ticks fuel : Nat} (hs : start < 2 ^ w)
    (ht1 : 1 ≤ ticks) (ht : ticks < 2 ^ w) (hf : ticks ≤ fuel) :
    delay_ticks w (ticking w start) ticks fuel =
      some (if (start + ticks) % 2 ^ w = 0 then ticks + 1 else ticks) := by
  by_cases hsum : start + ticks < 2 ^ w
  · rw [delay_ticks_ticking_normal hsum ht1 hf, Nat.mod_eq_of_lt hsum, if_neg (by omega)]
  · rw [delay_ticks_ticking_overflow hs ht (by omega) hf, mod_wrapped (by omega) (by omega)]
    by_cases hz : start + ticks = 2 ^ w
    · rw [if_pos hz, if_pos (by omega)]
    · rw [if_neg hz, if_neg (by omega)]

/-- Against a counter that advances by one between two reads every call returns,
at a read that is at least `ticks` reads after read 0. -/
theorem delay_ticks_ticking_returns {w start ticks : Nat} (hs : start < 2 ^ w)
    (ht : ticks < 2 ^ w) :
    ∃ i, ticks ≤ i ∧ ∀ fuel, 2 ^ w ≤ fuel →
      delay_ticks w (ticking w start) ticks fuel = some i := by
  rcases Nat.eq_zero_or_pos ticks with h0 | hpos
  · subst h0
    by_cases hmax : start + 1 = 2 ^ w
    · exact ⟨2 ^ w, Nat.zero_le _, fun fuel hf => delay_ticks_ticking_zero_max hmax hf⟩
    · exact ⟨1, Nat.zero_le _, fun fuel hf =>
        delay_ticks_ticking_zero (by omega) (by omega)⟩
  · refine ⟨if (start + ticks) % 2 ^ w = 0 then ticks + 1 else ticks, ?_, ?_⟩
    · split <;> omega
    · intro fuel hf
      exact delay_ticks_ticking_pos hs hpos ht (by omega)

/-- The reads left after read `i` of a counter that advances by one per read are
those of such a counter started one tick after the value of read `i`. -/
theorem reads_after_ticking (w start i : Nat) :
    reads_after (ticking w start) i = ticking w ((start + i + 1) % 2 ^ w) := by
  funext k
  simp only [reads_after, ticking]
  rw [Nat.mod_add_mod]
  congr 1
  omega

/-- A counter that does not advance and a positive `ticks`: one of the two loops
spins for ever. -/
theorem delay_ticks_stalled_none {w c ticks : Nat} (ht0 : 0 < ticks) (ht : ticks < 2 ^ w)
    (fuel : Nat) : delay_ticks w (stalled c) ticks fuel = none := by
  have hc : cast_ulong w c < 2 ^ w := cast_ulong_lt w c
  by_cases ho : target w (stalled c) ticks < cast_ulong w (stalled c 0)
  · rw [delay_ticks_overflow ho]
    have hw : wait_wrap w (stalled c) fuel 1 = none := by
      refine busy_wait_none ?_ fuel
      intro j _
      simp only [stalled, gt_iff_lt, decide_eq_true_eq] at ho ⊢
      omega
    rw [hw]
  · rw [delay_ticks_normal ho]
    refine busy_wait_none ?_ fuel
    intro j _
    simp only [target, stalled, cast_ulong, gt_iff_lt, decide_eq_true_eq] at ho hc ⊢
    have hsum := no_overflow_of_not_lt ht hc ho
    rw [Nat.mod_eq_of_lt hsum]
    omega

/-- In the overflow case a call whose reads after read 0 are never 0 stays in the
loop of line 19. -/
theorem wait_wrap_none_of_nonzero {w : Nat} {mtime : Nat → Nat}
    (hnz : ∀ j, 1 ≤ j → cast_ulong w (mtime j) ≠ 0) (fuel : Nat) :
    wait_wrap w mtime fuel 1 = none := by
  refine busy_wait_none ?_ fuel
  intro j hj
  have := hnz j hj
  simp only [gt_iff_lt, decide_eq_true_eq]
  omega

/-- The conversion of `delay_ms` when the product fits in an `unsigned long`. -/
theorem delay_ms_ticks_of_fits {w rate ms : Nat} (h : rate * ms < 2 ^ w) :
    delay_ms_ticks w rate ms = rate * ms / 1000 := by
  have hdiv : rate * ms / 1000 < 2 ^ w := lt_of_le_of_lt (Nat.div_le_self _ _) h
  unfold delay_ms_ticks cast_ulong
  rcases Nat.eq_zero_or_pos ms with hms | hms
  · subst hms
    simp
  rcases Nat.eq_zero_or_pos rate with hr | hr
  · subst hr
    simp
  have hrate : rate < 2 ^ w := lt_of_le_of_lt (Nat.le_mul_of_pos_right rate hms) h
  have hms2 : ms < 2 ^ w := lt_of_le_of_lt (Nat.le_mul_of_pos_left ms hr) h
  rw [Nat.mod_eq_of_lt hrate, Nat.mod_eq_of_lt hms2, Nat.mod_eq_of_lt h,
    Nat.mod_eq_of_lt hdiv]

/-- Against a counter that advances by one per read, the number of the last read
does not decrease when `ticks` grows, as long as the smaller `ticks` is positive
or read 0 is below the maximum `2 ^ w - 1`. -/
theorem delay_ticks_monotone_away_from_max {w start t1 t2 fuel1 fuel2 i1 i2 : Nat}
    (hs : start < 2 ^ w) (ht2 : t2 < 2 ^ w) (hle : t1 ≤ t2)
    (hok : 1 ≤ t1 ∨ start + 1 < 2 ^ w)
    (h1 : delay_ticks w (ticking w start) t1 fuel1 = some i1)
    (h2 : delay_ticks w (ticking w start) t2 fuel2 = some i2) : i1 ≤ i2 := by
  obtain ⟨k, hk, hret⟩ := delay_ticks_ticking_returns hs ht2
  have hi2 : i2 = k := delay_ticks_unique (hret _ (le_refl _)) h2
  rcases Nat.eq_zero_or_pos t1 with h0 | hpos
  · subst h0
    rcases Nat.eq_zero_or_pos t2 with h20 | h2pos
    · subst h20
      have := delay_ticks_unique h1 h2
      omega
    · have hmax : start + 1 < 2 ^ w := by omega
      have hi1 : i1 = 1 :=
        delay_ticks_unique (delay_ticks_ticking_zero hmax (le_refl 1)) h1
      omega
  · have hi1 : i1 = if (start + t1) % 2 ^ w = 0 then t1 + 1 else t1 :=
      delay_ticks_unique (delay_ticks_ticking_pos hs hpos (by omega) (le_refl _)) h1
    rcases Nat.eq_or_lt_of_le hle with heq | hlt
    · subst heq
      have := delay_ticks_unique h1 h2
      omega
    · rw [hi1, hi2]
      split <;> omega

/-! ## The claims -/

/-- C1: against a `w`-bit counter that advances by exactly one between two
consecutive reads, for every `start` and every `ticks` below `2 ^ w`, the call
`delay_ticks(ticks)` returns, and the read at which it returns (the same for
every amount of fuel that lets it return) is at least `ticks` reads, that is
`ticks` counter increments, after its first read. -/
theorem delay_ticks_waits_at_least (w start ticks : Nat) (hs : start < 2 ^ w)
    (ht : ticks < 2 ^ w) :
    ∃ i, ticks ≤ i ∧
      (∀ fuel, 2 ^ w ≤ fuel → delay_ticks w (ticking w start) ticks fuel = some i) ∧
      ∀ fuel k, delay_ticks w (ticking w start) ticks fuel = some k → k = i := by
  obtain ⟨i, hi, hret⟩ := delay_ticks_ticking_returns hs ht
  exact ⟨i, hi, hret, fun fuel k hk => delay_ticks_unique (hret _ (le_refl _)) hk⟩

theorem delay_ticks_waits_at_least_witness :
    250 < 2 ^ 8 ∧ 10 < 2 ^ 8 ∧
    ∃ i, 10 ≤ i ∧
      (∀ fuel, 2 ^ 8 ≤ fuel → delay_ticks 8 (ticking 8 250) 10 fuel = some i) ∧
      ∀ fuel k, delay_ticks 8 (ticking 8 250) 10 fuel = some k → k = i :=
  ⟨by decide, by decide, delay_ticks_waits_at_least 8 250 10 (by decide) (by decide)⟩

/-- C2: when `start + ticks` overflows the `w`-bit counter, `delay_ticks(ticks)`
against a counter that advances by one per read returns; some read `j` before
the read `i` at which it returns gave 0; the value read at return is at least
`(start + ticks) % 2 ^ w`; and that value is not 0, so the call does not return
at the wrap point. -/
theorem delay_ticks_wraparound (w start ticks : Nat) (hs : start < 2 ^ w)
    (ht : ticks < 2 ^ w) (hsum : 2 ^ w ≤ start + ticks) :
    ∃ i j,
      (∀ fuel, ticks ≤ fuel → delay_ticks w (ticking w start) ticks fuel = some i) ∧
      (∀ fuel k, delay_ticks w (ticking w start) ticks fuel = some k → k = i) ∧
      1 ≤ j ∧ j < i ∧ cast_ulong w (ticking w start j) = 0 ∧
      (start + ticks) % 2 ^ w ≤ cast_ulong w (ticking w start i) ∧
      cast_ulong w (ticking w start i) ≠ 0 := by
  have hret := fun fuel (hf : ticks ≤ fuel) => delay_ticks_ticking_overflow hs ht hsum hf
  refine ⟨if start + ticks = 2 ^ w then ticks + 1 else ticks, 2 ^ w - start, hret,
    fun fuel k hk => delay_ticks_unique (hret _ (le_refl _)) hk, by omega, ?_, ?_, ?_, ?_⟩
  · split <;> omega
  · rw [cast_ulong_ticking, Nat.add_sub_cancel' (le_of_lt hs), Nat.mod_self]
  · rw [cast_ulong_ticking, mod_wrapped hsum (by omega)]
    by_cases hz : start + ticks = 2 ^ w
    · rw [if_pos hz]; omega
    · rw [if_neg hz, mod_wrapped hsum (by omega)]
  · rw [cast_ulong_ticking]
    by_cases hz : start + ticks = 2 ^ w
    · rw [if_pos hz, mod_wrapped (by omega) (by omega)]; omega
    · rw [if_neg hz, mod_wrapped hsum (by omega)]; omega

theorem delay_ticks_wraparound_witness :
    250 < 2 ^ 8 ∧ 10 < 2 ^ 8 ∧ 2 ^ 8 ≤ 250 + 10 ∧ (250 + 10) % 2 ^ 8 = 4 ∧
    ∃ i j,
      (∀ fuel, 10 ≤ fuel → delay_ticks 8 (ticking 8 250) 10 fuel = some i) ∧
      (∀ fuel k, delay_ticks 8 (ticking 8 250) 10 fuel = some k → k = i) ∧
      1 ≤ j ∧ j < i ∧ cast_ulong 8 (ticking 8 250 j) = 0 ∧
      (250 + 10) % 2 ^ 8 ≤ cast_ulong 8 (ticking 8 250 i) ∧
      cast_ulong 8 (ticking 8 250 i) ≠ 0 :=
  ⟨by decide, by decide, by decide, by decide,
    delay_ticks_wraparound 8 250 10 (by decide) (by decide) (by decide)⟩

/-- C10: for `1 ≤ ticks < 2 ^ w`, `delay_ticks(ticks)` against a counter that
advances by exactly one between two reads returns, and the number of its last
read, which is the number of counter increments since its first read, is
exactly `ticks`, except when `(start + ticks) % 2 ^ w = 0`, where it is
`ticks + 1`. -/
theorem delay_ticks_exact_wait (w start ticks : Nat) (hs : start < 2 ^ w)
    (ht1 : 1 ≤ ticks) (ht : ticks < 2 ^ w) :
    (∀ fuel, ticks ≤ fuel → delay_ticks w (ticking w start) ticks fuel =
        some (if (start + ticks) % 2 ^ w = 0 then ticks + 1 else ticks)) ∧
    ∀ fuel k, delay_ticks w (ticking w start) ticks fuel = some k →
      k = if (start + ticks) % 2 ^ w = 0 then ticks + 1 else ticks := by
  have hret := fun fuel (hf : ticks ≤ fuel) => delay_ticks_ticking_pos hs ht1 ht hf
  exact ⟨hret, fun fuel k hk => delay_ticks_unique (hret _ (le_refl _)) hk⟩

theorem delay_ticks_exact_wait_witness :
    250 < 2 ^ 8 ∧ 1 ≤ 6 ∧ 6 < 2 ^ 8 ∧ (250 + 6) % 2 ^ 8 = 0 ∧
    (∀ fuel, 6 ≤ fuel → delay_ticks 8 (ticking 8 250) 6 fuel =
        some (if (250 + 6) % 2 ^ 8 = 0 then 6 + 1 else 6)) ∧
    ∀ fuel k, delay_ticks 8 (ticking 8 250) 6 fuel = some k →
      k = if (250 + 6) % 2 ^ 8 = 0 then 6 + 1 else 6 :=
  ⟨by decide, by decide, by decide, by decide,
    delay_ticks_exact_wait 8 250 6 (by decide) (by decide) (by decide)⟩

/-- C6: two calls `delay_ticks(n)` in a row against a counter that advances by one
per read, from any `start`: both return; the first returns at a read `i` at
least `n` increments after its first read (read 0); the second, whose first read
is read `i + 1`, returns at a read `k` at least `n` increments after read
`i + 1`; and `k` is at least `2 * n` increments after read 0. -/
theorem delay_ticks_twice_waits (w start n : Nat) (hs : start < 2 ^ w) (hn : n < 2 ^ w) :
    ∃ i k, n ≤ i ∧ i + 1 + n ≤ k ∧ 2 * n ≤ k ∧
      (∀ fuel, 2 ^ w ≤ fuel →
        delay_ticks_twice w (ticking w start) n fuel = some (i, k)) ∧
      ∀ fuel r, delay_ticks_twice w (ticking w start) n fuel = some r → r = (i, k) := by
  obtain ⟨i, hi, hret⟩ := delay_ticks_ticking_returns hs hn
  have hs2 : (start + i + 1) % 2 ^ w < 2 ^ w := Nat.mod_lt _ (by omega)
  obtain ⟨k, hk, hret2⟩ := delay_ticks_ticking_returns hs2 hn
  refine ⟨i, i + 1 + k, hi, by omega, by omega, ?_, ?_⟩
  · intro fuel hf
    simp only [delay_ticks_twice, hret fuel hf, reads_after_ticking, hret2 fuel hf]
  · intro fuel r hr
    unfold delay_ticks_twice at hr
    cases h1 : delay_ticks w (ticking w start) n fuel with
    | none => rw [h1] at hr; cases hr
    | some i2 =>
      have hi2 : i2 = i := delay_ticks_unique (hret _ (le_refl _)) h1
      subst hi2
      rw [h1] at hr
      simp only [reads_after_ticking] at hr
      cases h2 : delay_ticks w (ticking w ((start + i2 + 1) % 2 ^ w)) n fuel with
      | none => rw [h2] at hr; cases hr
      | some k2 =>
        have hk2 : k2 = k := delay_ticks_unique (hret2 _ (le_refl _)) h2
        subst hk2
        rw [h2] at hr
        exact (Option.some.inj hr).symm

theorem delay_ticks_twice_waits_witness :
    250 < 2 ^ 8 ∧ 10 < 2 ^ 8 ∧
    ∃ i k, 10 ≤ i ∧ i + 1 + 10 ≤ k ∧ 2 * 10 ≤ k ∧
      (∀ fuel, 2 ^ 8 ≤ fuel →
        delay_ticks_twice 8 (ticking 8 250) 10 fuel = some (i, k)) ∧
      ∀ fuel r, delay_ticks_twice 8 (ticking 8 250) 10 fuel = some r → r = (i, k) :=
  ⟨by decide, by decide, delay_ticks_twice_waits 8 250 10 (by decide) (by decide)⟩

/-- C7: when every read of the counter gives the same value `c` (for one, the
constant 0 of a timer that was never enabled), `delay_ticks(ticks)` with
`0 < ticks < 2 ^ w` does not return: whatever the number of polling iterations
allowed, the call is still spinning.  The result has no error value. -/
theorem delay_ticks_stalled_never_returns (w c ticks fuel : Nat) (ht0 : 0 < ticks)
    (ht : ticks < 2 ^ w) : delay_ticks w (stalled c) ticks fuel = none :=
  delay_ticks_stalled_none ht0 ht fuel

theorem delay_ticks_stalled_never_returns_witness :
    0 < 10 ∧ 10 < 2 ^ 8 ∧ delay_ticks 8 (stalled 0) 10 1000 = none :=
  ⟨by decide, by decide,
    delay_ticks_stalled_never_returns 8 0 10 1000 (by decide) (by decide)⟩

/-- C8: let read `i` of the counter give `(start + e i) % 2 ^ w` with `e 0 = 0`
and `e` nondecreasing.  For `start` and `ticks` below `2 ^ w`, if
`delay_ticks(ticks)` returns at read `i` then `ticks ≤ e i`. -/
theorem delay_ticks_no_early_return (w start ticks : Nat) (e : Nat → Nat) (fuel i : Nat)
    (hs : start < 2 ^ w) (ht : ticks < 2 ^ w) (h0 : e 0 = 0) (hmono : Monotone e)
    (h : delay_ticks w (elapsed_counter w start e) ticks fuel = some i) : ticks ≤ e i :=
  no_early_return hs ht h0 (fun _ _ hab => hmono hab) h

theorem delay_ticks_no_early_return_witness :
    250 < 2 ^ 8 ∧ 10 < 2 ^ 8 ∧ (fun i => 3 * i) 0 = 0 ∧ Monotone (fun i : Nat => 3 * i) ∧
    delay_ticks 8 (elapsed_counter 8 250 (fun i => 3 * i)) 10 5 = some 4 ∧
    10 ≤ (fun i => 3 * i) 4 :=
  ⟨by decide, by decide, rfl, fun _ _ hab => Nat.mul_le_mul_left 3 hab, by decide,
    delay_ticks_no_early_return 8 250 10 (fun i => 3 * i) 5 4 (by decide) (by decide) rfl
      (fun _ _ hab => Nat.mul_le_mul_left 3 hab) (by decide)⟩

/-- C9: in the overflow case (`delay_tks < mtime` at line 17), if no read after
read 0 gives exactly 0 then the loop of line 19 is never left and `delay_ticks`
never returns, whatever the number of polling iterations allowed. -/
theorem delay_ticks_needs_exact_zero (w : Nat) (mtime : Nat → Nat) (ticks fuel : Nat)
    (ho : overflowed w mtime ticks = true)
    (hnz : ∀ j, 1 ≤ j → cast_ulong w (mtime j) ≠ 0) :
    wait_wrap w mtime fuel 1 = none ∧ delay_ticks w mtime ticks fuel = none := by
  have ho2 : target w mtime ticks < cast_ulong w (mtime 0) := by
    simpa [overflowed] using ho
  have hw := wait_wrap_none_of_nonzero hnz fuel
  refine ⟨hw, ?_⟩
  rw [delay_ticks_overflow ho2, hw]

theorem delay_ticks_needs_exact_zero_witness :
    overflowed 8 (fun i => 251 + 2 * i) 10 = true ∧
    (∀ j, 1 ≤ j → cast_ulong 8 ((fun i => 251 + 2 * i) j) ≠ 0) ∧
    wait_wrap 8 (fun i => 251 + 2 * i) 1000 1 = none ∧
    delay_ticks 8 (fun i => 251 + 2 * i) 10 1000 = none :=
  ⟨by decide, fun j _ => by simp only [cast_ulong]; omega,
    delay_ticks_needs_exact_zero 8 (fun i => 251 + 2 * i) 10 1000 (by decide)
      (fun j _ => by simp only [cast_ulong]; omega)⟩

/-- C4, counterexample: with a 32-bit `unsigned long` and the rate 32768,
`delay_ms(131072)` hands 0 ticks to `delay_ticks`, because the product
`32768 * 131072` is `2 ^ 32` and wraps to 0, and not the quotient 4294967. -/
theorem delay_ms_ticks_wraps :
    delay_ms_ticks 32 32768 131072 = 0 ∧ 32768 * 131072 / 1000 = 4294967 ∧
    delay_ms_ticks 32 32768 131072 ≠ 32768 * 131072 / 1000 := by
  refine ⟨by decide, by decide, by decide⟩

/-- C4, as amended: for an `unsigned long` of `w ≥ 32` bits, whenever the product
`rate * ms` is below `2 ^ w`, the tick count that `delay_ms(ms)` hands to
`delay_ticks` is the quotient `rate * ms / 1000` rounded down; with the rate
32768, `ms = 1000` gives 32768 ticks and `ms = 1` gives 32 ticks. -/
theorem delay_ms_ticks_floor (w rate ms : Nat) (hw : 32 ≤ w) (hfit : rate * ms < 2 ^ w) :
    delay_ms_ticks w rate ms = rate * ms / 1000 ∧
    (∀ (mtime : Nat → Nat) (fuel : Nat),
      delay_ms w rate mtime ms fuel = delay_ticks w mtime (rate * ms / 1000) fuel) ∧
    delay_ms_ticks w 32768 1000 = 32768 ∧ delay_ms_ticks w 32768 1 = 32 := by
  have hpow : 2 ^ 32 ≤ 2 ^ w := Nat.pow_le_pow_right (by decide) hw
  have h32 : (2 : Nat) ^ 32 = 4294967296 := by norm_num
  refine ⟨delay_ms_ticks_of_fits hfit, ?_, ?_, ?_⟩
  · intro mtime fuel
    rw [delay_ms, delay_ms_ticks_of_fits hfit]
  · rw [delay_ms_ticks_of_fits (by omega)]
  · rw [delay_ms_ticks_of_fits (by omega)]

theorem delay_ms_ticks_floor_witness :
    32 ≤ 32 ∧ 32768 * 250 < 2 ^ 32 ∧
    delay_ms_ticks 32 32768 250 = 32768 * 250 / 1000 ∧
    (∀ (mtime : Nat → Nat) (fuel : Nat),
      delay_ms 32 32768 mtime 250 fuel = delay_ticks 32 mtime (32768 * 250 / 1000) fuel) ∧
    delay_ms_ticks 32 32768 1000 = 32768 ∧ delay_ms_ticks 32 32768 1 = 32 :=
  ⟨by decide, by decide, delay_ms_ticks_floor 32 32768 250 (by decide) (by decide)⟩

/-- C3, at the failing input: on an 8-bit counter that advances by one per read
and whose read 0 gives the maximum 255, `delay_ticks(0)` has the target 255 and
does not take the overflow branch, but read 1 gives 0, so the condition of the
loop of line 22 is true at its first test; the loop is still spinning after 255
tests and is left only at read 256. -/
theorem delay_ticks_zero_at_max_spins :
    target 8 (ticking 8 255) 0 = 255 ∧ overflowed 8 (ticking 8 255) 0 = false ∧
    cast_ulong 8 (ticking 8 255 1) = 0 ∧
    decide (target 8 (ticking 8 255) 0 > cast_ulong 8 (ticking 8 255 1)) = true ∧
    delay_ticks 8 (ticking 8 255) 0 255 = none ∧
    delay_ticks 8 (ticking 8 255) 0 256 = some 256 := by
  have hret : delay_ticks 8 (ticking 8 255) 0 256 = some 256 :=
    @delay_ticks_ticking_zero_max 8 255 256 (by decide) (by decide)
  refine ⟨by decide, by decide, by decide, by decide, ?_, hret⟩
  cases h : delay_ticks 8 (ticking 8 255) 0 255 with
  | none => rfl
  | some i =>
    have hi : i = 256 := delay_ticks_unique hret h
    have ho : ¬ target 8 (ticking 8 255) 0 < cast_ulong 8 (ticking 8 255 0) := by decide
    rw [delay_ticks_normal ho] at h
    obtain ⟨_, hlt, _, _⟩ := busy_wait_some h
    omega

/-- C5, at the failing input: on an 8-bit counter that advances by one per read
and whose read 0 gives 255, `delay_ticks(0)` returns at read 256 and
`delay_ticks(1)` returns at read 2, so the larger `ticks` sees fewer counter
increments. -/
theorem delay_ticks_not_monotone_at_max :
    delay_ticks 8 (ticking 8 255) 0 256 = some 256 ∧
    delay_ticks 8 (ticking 8 255) 1 256 = some 2 ∧ ¬ (256 ≤ 2) := by
  refine ⟨@delay_ticks_ticking_zero_max 8 255 256 (by decide) (by decide),
    ?_, by decide⟩
  have h := @delay_ticks_ticking_overflow 8 255 1 256
    (by decide) (by decide) (by decide) (by decide)
  rw [h]
  decide

end ExampleGpio
